import Mathlib

/-!
Verification of the IBM Ponder This 2024-03 search programs.

The repository holds three C programs that look for the smallest start value
A such that the sequence a_0 = A, a_i = a_{i-1} + i (so a_i = A + T i with
T i = i*(i+1)/2) of length n contains no prime:

* `IBM_ponder_2024-03_1.c` — the backward strategy: stream primes and cross
  out, for each prime p, the candidates p - T i ("processArray"), driven by
  the segment manager `look4StartValue`, checked by `CheckSequence`.
* `IBM_ponder_2024-03_2.c` — the forward strategy: build a prime indicator
  table (`fillArrayOfPrimes`) and test candidates with `isCorrectValue`.
* `IBM_ponder_2024-03_2_MT.c` — a pthread variant of the forward strategy
  with a shared best value (`mainLoop` workers).

The prime iterator of the primesieve library is modelled by an explicit
(sorted) list of primes handed to each function; the canonical instantiation
`primesBetween lo hi` is the list of all primes in [lo, hi].  Windows of
candidate marks are modelled as functions `Nat → Bool` (index to alive),
the prime indicator table as a `List Bool`.
-/

namespace Ponder

/-- Triangular number T i = i*(i+1)/2, the offset of term i from the start
value. -/
def T (i : Nat) : Nat := i * (i + 1) / 2

/-- Difference between the first and the last reachable term, as computed by
the second and third program (`upperBoundDiff = n*(n+1)/2` in their `main`). -/
def upperBoundDiff (n : Nat) : Nat := n * (n + 1) / 2

/-- A start value A is valid for length n when no term a_i = A + T i,
0 ≤ i < n, is prime. -/
def ValidStart (A n : Nat) : Prop := ∀ i < n, ¬ Nat.Prime (A + T i)

instance (A n : Nat) : Decidable (ValidStart A n) := by
  unfold ValidStart; infer_instance

/-- The list of all primes p with lo ≤ p ≤ hi, in increasing order.  This is
the model of the primesieve iterator positioned at lo by
`primesieve_jump_to`: successive `primesieve_next_prime` calls return
exactly these values (the hi bound replaces the unbounded stream; the
theorems pick hi large enough that the algorithms never look further). -/
def primesBetween (lo hi : Nat) : List Nat :=
  (List.range (hi + 1)).filter (fun q => decide (lo ≤ q ∧ Nat.Prime q))

theorem mem_primesBetween {lo hi q : Nat} :
    q ∈ primesBetween lo hi ↔ lo ≤ q ∧ q ≤ hi ∧ Nat.Prime q := by
  unfold primesBetween
  rw [List.mem_filter, List.mem_range]
  constructor
  · rintro ⟨h1, h2⟩
    have := of_decide_eq_true h2
    exact ⟨this.1, by omega, this.2⟩
  · rintro ⟨h1, h2, h3⟩
    exact ⟨by omega, decide_eq_true ⟨h1, h3⟩⟩

theorem primesBetween_sorted (lo hi : Nat) :
    (primesBetween lo hi).Pairwise (· < ·) :=
  List.Pairwise.sublist (List.filter_sublist _) (List.pairwise_lt_range _)

/-! ## Backward strategy: `processArray` (IBM_ponder_2024-03_1.c)

The global `numberArray` is modelled as a function `W : Nat → Bool`
(true = still alive); element j stands for the integer offset + j. -/

/-- Set cell k of a window to eliminated (false). -/
def elim (W : Nat → Bool) (k : Nat) : Nat → Bool :=
  fun j => if j = k then false else W j

/-- The inner crossing-out loop of `processArray`:
`while (i <= n) { offsetPrime -= (i++); if (offsetPrime < 0) break;
if (offsetPrime >= size) continue; numberArray[offsetPrime] = 0; }`.
`cnt` is the number of iterations still allowed (the loop guard `i ≤ n`
gives `n + 1 - i`); recursion is structural on `cnt`. -/
def ruleOutLoop (size : Nat) (W : Nat → Bool) (offsetPrime : Int) (i : Nat) :
    Nat → (Nat → Bool)
  | 0 => W
  | cnt + 1 =>
    let op := offsetPrime - (i : Int)
    if op < 0 then W
    else if (size : Int) ≤ op then ruleOutLoop size W op (i + 1) cnt
    else ruleOutLoop size (elim W op.toNat) op (i + 1) cnt

/-- One prime's worth of crossing out inside `processArray`: the loop body
runs with `offsetPrime = lastPrime - offset`, `i = 0`, and internal bound
`n-1` (after the `n--`), hence `(n-1)+1` iterations. -/
def crossOut (offset size n : Nat) (W : Nat → Bool) (p : Nat) : Nat → Bool :=
  ruleOutLoop size W ((p : Int) - (offset : Int)) 0 ((n - 1) + 1)

/-- The pointer-advance loop of `processArray`:
`do { possibleStartIndex++; } while (possibleStartIndex < size &&
!numberArray[possibleStartIndex]);` together with the preceding aliveness
test.  `rem` is `size - idx`, making the recursion structural. -/
def findAlive (W : Nat → Bool) (idx : Nat) : Nat → Nat
  | 0 => idx
  | rem + 1 => if W idx then idx else findAlive W (idx + 1) rem

/-- The do-while of `processArray`, consuming the prime stream.  Returns
`some k` for a surviving index, `some (-1)` when the window is cleared
(the C return -1), and `none` if the modelled finite stream runs dry (the
real iterator is unbounded; the theorems show this case is unreachable). -/
def processLoop (offset size n ub : Nat) (W : Nat → Bool) (ptr : Nat) :
    List Nat → Option Int
  | [] => none
  | p :: ps =>
    let W1 := crossOut offset size n W p
    let ptr1 := if W1 ptr then ptr else findAlive W1 (ptr + 1) (size - (ptr + 1))
    if ptr1 = size then some (-1)
    else if ((p : Int) - (offset : Int)) ≤ (ptr1 : Int) + (ub : Int) then
      processLoop offset size n ub W1 ptr1 ps
    else some (ptr1 : Int)

/-- `processArray(offset, startValueIndex, n, size)` with the window `W`
(the global `numberArray`) and the prime stream passed explicitly.  The C
body decrements n and sets `upperBoundDiff = n*(n+1)/2` on the decremented
value, then streams primes from `offset + startValueIndex`. -/
def processArray (W : Nat → Bool) (offset startValueIndex n size : Nat)
    (ps : List Nat) : Option Int :=
  processLoop offset size n ((n - 1) * ((n - 1) + 1) / 2) W startValueIndex ps

/-- `initArray` sets every cell of the window to one (alive). -/
def initArray : Nat → Bool := fun _ => true

/-- `processArray` as invoked by `look4StartValue`: fresh all-alive window,
`startValueIndex = 0`, and the canonical prime stream starting at `offset`.
The stream bound `2 * (offset + size + T (n-1))` is large enough (by
Bertrand's postulate) that the finite-stream model never runs dry. -/
def processArrayRun (offset n size : Nat) : Option Int :=
  processArray initArray offset 0 n size
    (primesBetween offset (2 * (offset + size + T (n - 1))))

/-- The segment manager `look4StartValue`: run `processArray` on the window
[startValue, startValue+size); on -1 advance by size and retry.  The C loop
is unbounded (`while (1)`); `fuel` bounds the number of windows in the model
and `none` marks fuel exhaustion (the theorems provide enough fuel). -/
def look4StartValue (startValue n size : Nat) : Nat → Option Nat
  | 0 => none
  | fuel + 1 =>
    match processArrayRun startValue n size with
    | some k => if 0 ≤ k then some (k.toNat + startValue)
                else look4StartValue (startValue + size) n size fuel
    | none => none

/-! ## Verifier: `CheckSequence` (identical in all three C files) -/

/-- The prime-fetch of one do-iteration of `CheckSequence`:
`while ((nextPrime = primesieve_next_prime(&it)) < initialValue);`.
Always consumes at least one stream element; returns the first prime ≥ x and
the remaining stream, or `none` if the modelled stream runs dry. -/
def nextGE (x : Nat) : List Nat → Option (Nat × List Nat)
  | [] => none
  | p :: ps => if p < x then nextGE x ps else some (p, ps)

/-- The term-advance loop of `CheckSequence`:
`while ((initialValue += (*iterationNbr)++) < nextPrime)
 { if (*iterationNbr >= n) break; }`.
Returns the updated (value, iteration counter).  `fuel` only bounds the
recursion (the loop body runs at most n - iter more times since it stops
once the incremented counter reaches n); callers pass `fuel = n`. -/
def advanceLoop (p n : Nat) (A iter : Nat) : Nat → Nat × Nat
  | 0 => (A + iter, iter + 1)
  | fuel + 1 =>
    let A1 := A + iter
    let it1 := iter + 1
    if A1 < p then
      if n ≤ it1 then (A1, it1)
      else advanceLoop p n A1 it1 fuel
    else (A1, it1)

/-- The outer do-while of `CheckSequence`.  Returns `some (r, iter)` where r
is the C return value (0 = sequence correct, otherwise the offending prime)
and iter the final `*iterationNbr`; `none` if the stream model runs dry.
`fuel` bounds the do-iterations (the counter strictly increases and the loop
runs while it is < n, so `n` suffices). -/
def checkLoop (n : Nat) (A iter : Nat) (ps : List Nat) : Nat → Option (Nat × Nat)
  | 0 => none
  | fuel + 1 =>
    match nextGE A ps with
    | none => none
    | some (p, rest) =>
      if p = A then some (A, iter)
      else
        let r := advanceLoop p n A iter n
        if p = r.1 then some (r.1, r.2)
        else if r.2 < n then checkLoop n r.1 r.2 rest fuel
        else some (0, r.2)

/-- `CheckSequence(initialValue, n, &iter)` with an explicit prime stream
(the iterator is re-positioned at `initialValue` by `primesieve_jump_to`). -/
def CheckSequence (initialValue n : Nat) (ps : List Nat) : Option (Nat × Nat) :=
  checkLoop n initialValue 1 ps n

/-- `CheckSequence` with the canonical prime stream from `initialValue` up
to a bound large enough (Bertrand) never to run dry. -/
def CheckSequenceRun (initialValue n : Nat) : Option (Nat × Nat) :=
  CheckSequence initialValue n
    (primesBetween initialValue (2 * (initialValue + T (n - 1)) + 4))

/-! ## Forward strategy (IBM_ponder_2024-03_2.c)

The prime indicator table `primeArray` is modelled as a `List Bool` and the
unchecked C reads `primeArray[...]` as guarded `List` indexing `l[i]?`. -/

/-- Set cell k of the table to true (no-op outside the list, matching the C
loop guard that stops before any out-of-range write). -/
def markTrue : List Bool → Nat → List Bool
  | [], _ => []
  | _ :: bs, 0 => true :: bs
  | b :: bs, k + 1 => b :: markTrue bs k

/-- The marking loop of `fillArrayOfPrimes`:
`lastPrime = primesieve_next_prime(&it);
 while ((pIndex = lastPrime - offset) < primeSize) {
   primeArray[pIndex] = 1; lastPrime = primesieve_next_prime(&it); }`. -/
def markPrimes (arr : List Bool) (offset primeSize : Nat) : List Nat → List Bool
  | [] => arr
  | p :: ps =>
    if p - offset < primeSize then markPrimes (markTrue arr (p - offset)) offset primeSize ps
    else arr

/-- `fillArrayOfPrimes(offset, memSize)`: allocate and zero
`memSize + upperBoundDiff` cells (`upperBoundDiff = n*(n+1)/2`, set by
`main` without decrementing n), then mark every streamed prime. -/
def fillArrayOfPrimes (offset memSize n : Nat) (ps : List Nat) : List Bool :=
  markPrimes (List.replicate (memSize + upperBoundDiff n) false) offset
    (memSize + upperBoundDiff n) ps

/-- `fillArrayOfPrimes` with the canonical prime stream: the real iterator is
stopped by the first prime at index ≥ primeSize, so the primes in
[offset, offset + primeSize) determine the table. -/
def fillRun (offset memSize n : Nat) : List Bool :=
  fillArrayOfPrimes offset memSize n
    (primesBetween offset (offset + memSize + upperBoundDiff n))

/-- The testing loop of `isCorrectValue`:
`while (i < n) { if (primeArray[(valueOffset += (i++))]) return 0; }` —
reads are modelled with `l[i]?`, `none` signalling an out-of-range read
(which the C would perform unchecked).  `cnt` is `n - i`. -/
def isCorrectValueLoop (table : List Bool) (valueOffset i : Nat) :
    Nat → Option Bool
  | 0 => some true
  | cnt + 1 =>
    let vo := valueOffset + i
    match table[vo]? with
    | none => none
    | some true => some false
    | some false => isCorrectValueLoop table vo (i + 1) cnt

/-- `isCorrectValue(offset, value, n)`: test whether `value` can start the
sequence, via table lookups at value - offset + T i. -/
def isCorrectValue (table : List Bool) (offset value n : Nat) : Option Bool :=
  isCorrectValueLoop table (value - offset) 0 n

/-- One window of the forward search of the second program's `main`: scan
candidates `offset + k` for k = 0, 1, ... until `isCorrectValue` succeeds,
reporting `some (-1)` when k reaches the window size (the next window would
be started), mirroring the exhaustion report of the backward strategy.
`none` propagates an out-of-range table read. -/
def forwardLoop (table : List Bool) (offset n : Nat) (k : Nat) : Nat → Option Int
  | 0 => some (-1)
  | cnt + 1 =>
    match isCorrectValue table offset (offset + k) n with
    | none => none
    | some true => some (k : Int)
    | some false => forwardLoop table offset n (k + 1) cnt

/-- The forward strategy on one window [offset, offset + size), with the
canonically built table. -/
def forwardSearchRun (offset n size : Nat) : Option Int :=
  forwardLoop (fillRun offset size n) offset n 0 size

/-! ## Concurrent coordinator (IBM_ponder_2024-03_2_MT.c)

Workers are modelled by a small-step interleaving semantics: a schedule is a
list of worker indices, and each scheduled step executes one atomic action
of that worker — one loop iteration of `mainLoop` (its only shared access is
the single volatile read of `bestValue`), or the mutex-protected update
section.  `best = 0` is the C sentinel for "no value found yet". -/

/-- Phase of one worker thread of `mainLoop`: still scanning at candidate c,
out of the loop and about to run the locked update section with value c, or
terminated. -/
inductive WStatus where
  | running (c : Nat)
  | installing (c : Nat)
  | done
deriving DecidableEq, Repr

/-- Shared state: the volatile `bestValue` and each worker's phase. -/
structure MTState where
  best : Nat
  workers : Nat → WStatus

/-- Point update of the worker table. -/
def updW (f : Nat → WStatus) (w : Nat) (v : WStatus) : Nat → WStatus :=
  fun w' => if w' = w then v else f w'

/-- Initial state for one window: `bestValue = 0` and worker w at
`tab[w] = w + globalOffset` (`main`, thread creation loop). -/
def mtInit (globalOffset : Nat) : MTState :=
  { best := 0, workers := fun w => .running (globalOffset + w) }

/-- One scheduled step of worker w.  `test` is `isCorrectValue` on the
read-only table; `memSize + globalOffset` is the loop bound of `mainLoop`;
`numThreads` the stride.  A running worker at c: if the loop guard
`c < memSize + globalOffset` fails it exits with -1 (no update); otherwise
it tests c and breaks out when `res || (bestValue && bestValue < c)`, else
advances by `numThreads`.  A worker that broke out executes the locked
section: `if (!bestValue || c < bestValue) bestValue = c;` and exits. -/
def mtStep (test : Nat → Bool) (memSize globalOffset numThreads : Nat)
    (s : MTState) (w : Nat) : MTState :=
  if w < numThreads then
    match s.workers w with
    | .done => s
    | .installing c =>
      { best := if s.best = 0 ∨ c < s.best then c else s.best,
        workers := updW s.workers w .done }
    | .running c =>
      if c < memSize + globalOffset then
        if test c || (decide (s.best ≠ 0) && decide (s.best < c)) then
          { s with workers := updW s.workers w (.installing c) }
        else { s with workers := updW s.workers w (.running (c + numThreads)) }
      else { s with workers := updW s.workers w .done }
  else s

/-- Run a whole schedule. -/
def mtRun (test : Nat → Bool) (memSize globalOffset numThreads : Nat)
    (s : MTState) : List Nat → MTState
  | [] => s
  | w :: sch => mtRun test memSize globalOffset numThreads
      (mtStep test memSize globalOffset numThreads s w) sch

/-- All workers have terminated — the `pthread_join` barrier of `main`. -/
def AllDone (numThreads : Nat) (s : MTState) : Prop :=
  ∀ w < numThreads, s.workers w = .done

instance (numThreads : Nat) (s : MTState) : Decidable (AllDone numThreads s) := by
  unfold AllDone; infer_instance

/-- The per-candidate test executed by each worker of `mainLoop`:
`res = isCorrectValue(*startValue);` against the canonically built
read-only table. -/
def workerTest (offset memSize n : Nat) : Nat → Bool :=
  fun c => decide (isCorrectValue (fillRun offset memSize n) offset c n = some true)

/-- Cumulative decrement performed by iterations i, i+1, ..., i+t of the
crossing-out loop of `processArray` (iteration j subtracts j). -/
def stepSum (i t : Nat) : Nat := (t + 1) * i + T t

/-- Worker index owning the residue class of candidate m in `mainLoop`'s
partition of a window starting at `offset` among `W` workers. -/
def ownerOf (offset W m : Nat) : Nat := (m - offset) % W

/-- Invariant of the concurrent search in the scenario where `m` is the
least candidate of the window accepted by `test`: the shared best is unset
or a window candidate accepted by `test`; the owner of m scans its residue
class and never passes m; installers hold an accepted candidate unless they
broke off because a strictly smaller best existed; once the owner is done
the best is exactly m; running workers stay at or above the offset. -/
def MTInv (test : Nat → Bool) (memSize offset W m : Nat) (s : MTState) : Prop :=
  (s.best = 0 ∨ (test s.best = true ∧ offset ≤ s.best ∧ s.best < offset + memSize)) ∧
  (∀ c, s.workers (ownerOf offset W m) = .running c →
    (∃ t, c = offset + ownerOf offset W m + t * W) ∧ c ≤ m) ∧
  (∀ w, w < W → ∀ c, s.workers w = .installing c →
    (test c = true ∧ offset ≤ c ∧ c < offset + memSize) ∨
      (s.best ≠ 0 ∧ s.best < c)) ∧
  (s.workers (ownerOf offset W m) = .done → s.best = m) ∧
  (∀ c, s.workers (ownerOf offset W m) = .installing c → c = m) ∧
  (∀ w, w < W → ∀ c, s.workers w = .running c → offset ≤ c)

/-! ## Arithmetic facts about triangular numbers -/

theorem T_zero : T 0 = 0 := rfl

theorem T_succ (t : Nat) : T (t + 1) = T t + (t + 1) := by
  show (t + 1) * (t + 1 + 1) / 2 = t * (t + 1) / 2 + (t + 1)
  have h : (t + 1) * (t + 1 + 1) = t * (t + 1) + (t + 1) * 2 := by ring
  rw [h, Nat.add_mul_div_right _ _ (by norm_num)]

theorem T_mono {i j : Nat} (h : i ≤ j) : T i ≤ T j :=
  Nat.div_le_div_right (Nat.mul_le_mul h (by omega))

theorem stepSum_zero (i : Nat) : stepSum i 0 = i := by
  simp [stepSum, T]

theorem stepSum_succ (i t : Nat) : stepSum i (t + 1) = i + stepSum (i + 1) t := by
  unfold stepSum
  rw [T_succ]
  ring

theorem le_stepSum (i t : Nat) : i ≤ stepSum i t := by
  unfold stepSum
  have : 1 * i ≤ (t + 1) * i := Nat.mul_le_mul_right i (by omega)
  omega

theorem stepSum_zero_left (t : Nat) : stepSum 0 t = T t := by
  simp [stepSum]

/-! ## Characterization of the crossing-out loop -/

theorem elim_eq_false_iff (W : Nat → Bool) (k j : Nat) :
    elim W k j = false ↔ j = k ∨ W j = false := by
  unfold elim
  by_cases h : j = k <;> simp [h]

theorem ruleOutLoop_false_iff (size : Nat) :
    ∀ (cnt : Nat) (W : Nat → Bool) (v : Int) (i : Nat) (j : Nat),
    ruleOutLoop size W v i cnt j = false ↔
      W j = false ∨ ∃ t < cnt, (j : Int) = v - stepSum i t ∧ j < size := by
  intro cnt
  induction cnt with
  | zero => intro W v i j; simp [ruleOutLoop]
  | succ cnt ih =>
    intro W v i j
    simp only [ruleOutLoop]
    by_cases hneg : v - (i : Int) < 0
    · rw [if_pos hneg]
      constructor
      · intro h; exact Or.inl h
      · rintro (h | ⟨t, ht, hj, hjs⟩)
        · exact h
        · exfalso
          have h1 : (stepSum i t : Int) ≥ (i : Int) := by
            exact_mod_cast le_stepSum i t
          have h2 : (j : Int) ≥ 0 := Int.natCast_nonneg j
          omega
    · rw [if_neg hneg]
      by_cases hsz : (size : Int) ≤ v - (i : Int)
      · rw [if_pos hsz, ih]
        constructor
        · rintro (h | ⟨t, ht, hj, hjs⟩)
          · exact Or.inl h
          · refine Or.inr ⟨t + 1, by omega, ?_, hjs⟩
            rw [stepSum_succ]
            push_cast
            omega
        · rintro (h | ⟨t, ht, hj, hjs⟩)
          · exact Or.inl h
          · match t with
            | 0 =>
              exfalso
              rw [stepSum_zero] at hj
              omega
            | t + 1 =>
              refine Or.inr ⟨t, by omega, ?_, hjs⟩
              rw [stepSum_succ] at hj
              push_cast at hj ⊢
              omega
      · rw [if_neg hsz, ih]
        rw [elim_eq_false_iff]
        constructor
        · rintro ((h | h) | ⟨t, ht, hj, hjs⟩)
          · refine Or.inr ⟨0, by omega, ?_, ?_⟩
            · rw [stepSum_zero]
              have : ((v - (i : Int)).toNat : Int) = v - (i : Int) :=
                Int.toNat_of_nonneg (by omega)
              omega
            · have : ((v - (i : Int)).toNat : Int) = v - (i : Int) :=
                Int.toNat_of_nonneg (by omega)
              omega
          · exact Or.inl h
          · refine Or.inr ⟨t + 1, by omega, ?_, hjs⟩
            rw [stepSum_succ]
            push_cast
            omega
        · rintro (h | ⟨t, ht, hj, hjs⟩)
          · exact Or.inl (Or.inr h)
          · match t with
            | 0 =>
              rw [stepSum_zero] at hj
              refine Or.inl (Or.inl ?_)
              omega
            | t + 1 =>
              refine Or.inr ⟨t, by omega, ?_, hjs⟩
              rw [stepSum_succ] at hj
              push_cast at hj ⊢
              omega

theorem crossOut_false_iff (offset size n : Nat) (hn : 1 ≤ n)
    (W : Nat → Bool) (p : Nat) (j : Nat) :
    crossOut offset size n W p j = false ↔
      W j = false ∨ ∃ i < n, offset + j + T i = p ∧ j < size := by
  unfold crossOut
  rw [ruleOutLoop_false_iff]
  have hcnt : n - 1 + 1 = n := by omega
  rw [hcnt]
  constructor
  · rintro (h | ⟨t, ht, hj, hjs⟩)
    · exact Or.inl h
    · refine Or.inr ⟨t, ht, ?_, hjs⟩
      rw [stepSum_zero_left] at hj
      omega
  · rintro (h | ⟨i, hi, hterm, hjs⟩)
    · exact Or.inl h
    · refine Or.inr ⟨i, hi, ?_, hjs⟩
      rw [stepSum_zero_left]
      omega

theorem crossOut_mono (offset size n : Nat) (hn : 1 ≤ n)
    (W : Nat → Bool) (p : Nat) (j : Nat) (h : W j = false) :
    crossOut offset size n W p j = false :=
  (crossOut_false_iff offset size n hn W p j).mpr (Or.inl h)

theorem crossOut_true (offset size n : Nat) (hn : 1 ≤ n)
    (W : Nat → Bool) (p : Nat) (j : Nat)
    (h : crossOut offset size n W p j = true) : W j = true := by
  by_contra hfalse
  have : W j = false := by
    cases hW : W j
    · rfl
    · exact absurd hW hfalse
  rw [crossOut_mono offset size n hn W p j this] at h
  cases h

/-! ## The pointer-advance loop -/

theorem findAlive_spec (W : Nat → Bool) (size : Nat) :
    ∀ (rem idx : Nat), rem = size - idx → idx ≤ size →
    idx ≤ findAlive W idx rem ∧ findAlive W idx rem ≤ size ∧
      (∀ j, idx ≤ j → j < findAlive W idx rem → W j = false) ∧
      (findAlive W idx rem < size → W (findAlive W idx rem) = true) := by
  intro rem
  induction rem with
  | zero =>
    intro idx hrem hle
    have : idx = size := by omega
    subst this
    refine ⟨le_refl _, le_refl _, ?_, ?_⟩
    · intro j h1 h2
      exfalso
      simp only [findAlive] at h2
      omega
    · intro h
      exfalso
      simp only [findAlive] at h
      omega
  | succ rem ih =>
    intro idx hrem hle
    simp only [findAlive]
    by_cases hW : W idx
    · rw [if_pos hW]
      exact ⟨le_refl _, by omega, fun j h1 h2 => by omega, fun _ => hW⟩
    · rw [if_neg hW]
      have hidx : idx < size := by omega
      obtain ⟨h1, h2, h3, h4⟩ := ih (idx + 1) (by omega) (by omega)
      refine ⟨by omega, h2, ?_, h4⟩
      intro j hj1 hj2
      rcases Nat.eq_or_lt_of_le hj1 with heq | hlt
      · subst heq
        cases hWj : W idx
        · rfl
        · exact absurd hWj hW
      · exact h3 j hlt hj2

/-! ## Functional correctness of the backward strategy -/

theorem processLoop_correct
    (offset N size B : Nat) (hN : 1 ≤ N) (hsize : 1 ≤ size)
    (hbig : ∃ q, Nat.Prime q ∧ offset + size + T (N - 1) ≤ q ∧ q ≤ B) :
    ∀ (ps : List Nat) (lo : Nat) (W : Nat → Bool) (ptr : Nat),
    ps.Pairwise (· < ·) →
    (∀ x ∈ ps, Nat.Prime x ∧ lo ≤ x ∧ x ≤ B) →
    (∀ q, Nat.Prime q → lo ≤ q → q ≤ B → q ∈ ps) →
    offset ≤ lo → lo ≤ offset + size + T (N - 1) →
    (∀ j, W j = false → j < size ∧ ∃ i < N, Nat.Prime (offset + j + T i)) →
    (∀ j, j < ptr → W j = false) →
    ptr < size → W ptr = true →
    (∀ j, j < size → W j = true →
      ∀ i, i < N → Nat.Prime (offset + j + T i) → lo ≤ offset + j + T i) →
    (∃ k : Nat, processLoop offset size N (T (N - 1)) W ptr ps = some (k : Int) ∧
        k < size ∧ ValidStart (offset + k) N ∧
        ∀ j, j < k → ¬ ValidStart (offset + j) N) ∨
      (processLoop offset size N (T (N - 1)) W ptr ps = some (-1) ∧
        ∀ k, k < size → ¬ ValidStart (offset + k) N) := by
  intro ps
  induction ps with
  | nil =>
    intro lo W ptr hsort hmem hcompl holo hloL ha hb hptr hWptr hd
    exfalso
    obtain ⟨q, hq, hqL, hqB⟩ := hbig
    exact absurd (hcompl q hq (by omega) hqB) (List.not_mem_nil q)
  | cons p ps ih =>
    intro lo W ptr hsort hmem hcompl holo hloL ha hb hptr hWptr hd
    obtain ⟨hpprime, hlop, hpB⟩ := hmem p (List.mem_cons_self p ps)
    have hpairs := List.pairwise_cons.mp hsort
    have hheadmin : ∀ q, Nat.Prime q → lo ≤ q → q < p → False := by
      intro q hq hloq hqp
      rcases List.mem_cons.mp (hcompl q hq hloq (by omega)) with heq | hmem2
      · omega
      · have := hpairs.1 q hmem2; omega
    simp only [processLoop]
    set W1 := crossOut offset size N W p with hW1def
    set ptr1 := if W1 ptr then ptr else findAlive W1 (ptr + 1) (size - (ptr + 1))
      with hptr1def
    have hW1a : ∀ j, W1 j = false →
        j < size ∧ ∃ i < N, Nat.Prime (offset + j + T i) := by
      intro j hj
      rcases (crossOut_false_iff offset size N hN W p j).mp hj with
        h | ⟨i, hi, hterm, hjs⟩
      · exact ha j h
      · exact ⟨hjs, i, hi, by rw [hterm]; exact hpprime⟩
    have hW1mono : ∀ j, W j = false → W1 j = false :=
      fun j h => crossOut_mono offset size N hN W p j h
    have hW1true : ∀ j, W1 j = true → W j = true :=
      fun j h => crossOut_true offset size N hN W p j h
    have hW1elim : ∀ j, j < size → ∀ i, i < N → offset + j + T i = p →
        W1 j = false := by
      intro j hjs i hi hterm
      exact (crossOut_false_iff offset size N hN W p j).mpr
        (Or.inr ⟨i, hi, hterm, hjs⟩)
    have hptr1 : ptr ≤ ptr1 ∧ ptr1 ≤ size ∧
        (∀ j, ptr ≤ j → j < ptr1 → W1 j = false) ∧
        (ptr1 < size → W1 ptr1 = true) := by
      by_cases hW1ptr : W1 ptr = true
      · have heq : ptr1 = ptr := by rw [hptr1def, if_pos hW1ptr]
        rw [heq]
        exact ⟨le_refl _, by omega, fun j h1 h2 => by omega, fun _ => hW1ptr⟩
      · have heq : ptr1 = findAlive W1 (ptr + 1) (size - (ptr + 1)) := by
          rw [hptr1def, if_neg hW1ptr]
        obtain ⟨h1, h2, h3, h4⟩ :=
          findAlive_spec W1 size (size - (ptr + 1)) (ptr + 1) rfl (by omega)
        rw [heq]
        refine ⟨by omega, h2, ?_, h4⟩
        intro j hj1 hj2
        rcases Nat.eq_or_lt_of_le hj1 with heq2 | hlt
        · subst heq2
          cases hWj : W1 ptr
          · rfl
          · exact absurd hWj hW1ptr
        · exact h3 j hlt hj2
    have hbnew : ∀ j, j < ptr1 → W1 j = false := by
      intro j hj
      by_cases hjp : j < ptr
      · exact hW1mono j (hb j hjp)
      · exact hptr1.2.2.1 j (by omega) hj
    by_cases hend : ptr1 = size
    · rw [if_pos hend]
      right
      refine ⟨rfl, ?_⟩
      intro k hk
      obtain ⟨_, i, hi, hpr⟩ := hW1a k (hbnew k (by omega))
      intro hval
      exact hval i hi hpr
    · rw [if_neg hend]
      have hptr1size : ptr1 < size := by
        have := hptr1.2.1; omega
      have hW1ptr1 : W1 ptr1 = true := hptr1.2.2.2 hptr1size
      have hdnew : ∀ j, j < size → W1 j = true →
          ∀ i, i < N → Nat.Prime (offset + j + T i) → p + 1 ≤ offset + j + T i := by
        intro j hjs hj i hi hpr
        have hge : lo ≤ offset + j + T i := hd j hjs (hW1true j hj) i hi hpr
        by_contra hlt
        rcases Nat.lt_or_ge (offset + j + T i) p with hqp | hqp
        · exact hheadmin _ hpr hge hqp
        · have heqp : offset + j + T i = p := by omega
          rw [hW1elim j hjs i hi heqp] at hj
          cases hj
      by_cases hcont : ((p : Int) - (offset : Int)) ≤ (ptr1 : Int) + (T (N - 1) : Int)
      · rw [if_pos hcont]
        have hple : p ≤ offset + ptr1 + T (N - 1) := by omega
        apply ih (p + 1) W1 ptr1 hpairs.2
        · intro x hx
          obtain ⟨hx1, _, hx3⟩ := hmem x (List.mem_cons_of_mem p hx)
          exact ⟨hx1, by have := hpairs.1 x hx; omega, hx3⟩
        · intro q hq hq1 hqB
          rcases List.mem_cons.mp (hcompl q hq (by omega) hqB) with heq | hmem2
          · omega
          · exact hmem2
        · omega
        · omega
        · exact hW1a
        · exact hbnew
        · exact hptr1size
        · exact hW1ptr1
        · exact hdnew
      · rw [if_neg hcont]
        left
        refine ⟨ptr1, rfl, hptr1size, ?_, ?_⟩
        · intro i hi hpr
          have hge : lo ≤ offset + ptr1 + T i :=
            hd ptr1 hptr1size (hW1true ptr1 hW1ptr1) i hi hpr
          have hTi : T i ≤ T (N - 1) := T_mono (by omega)
          exact hheadmin _ hpr hge (by omega)
        · intro j hj
          obtain ⟨_, i, hi, hpr⟩ := hW1a j (hbnew j hj)
          intro hval
          exact hval i hi hpr

theorem processArrayRun_correct (offset N size : Nat) (hN : 1 ≤ N)
    (hsize : 1 ≤ size) :
    (∃ k : Nat, processArrayRun offset N size = some (k : Int) ∧
        k < size ∧ ValidStart (offset + k) N ∧
        ∀ j, j < k → ¬ ValidStart (offset + j) N) ∨
      (processArrayRun offset N size = some (-1) ∧
        ∀ k, k < size → ¬ ValidStart (offset + k) N) := by
  have hL : offset + size + T (N - 1) ≠ 0 := by omega
  obtain ⟨q, hq, hq1, hq2⟩ := Nat.bertrand (offset + size + T (N - 1)) hL
  have hbig : ∃ q, Nat.Prime q ∧ offset + size + T (N - 1) ≤ q ∧
      q ≤ 2 * (offset + size + T (N - 1)) := ⟨q, hq, by omega, hq2⟩
  have h := processLoop_correct offset N size
      (2 * (offset + size + T (N - 1))) hN hsize hbig
      (primesBetween offset (2 * (offset + size + T (N - 1)))) offset initArray 0
      (primesBetween_sorted _ _)
      (fun x hx => by
        obtain ⟨h1, h2, h3⟩ := mem_primesBetween.mp hx
        exact ⟨h3, h1, h2⟩)
      (fun q' hq' h1 h2 => mem_primesBetween.mpr ⟨h1, h2, hq'⟩)
      (le_refl _) (by omega)
      (fun j h => by simp [initArray] at h)
      (fun j h => absurd h (by omega))
      (by omega) rfl
      (fun j _ _ i _ _ => by omega)
  exact h

/-- Smallest-valid indices are unique. -/
theorem smallestValid_unique {offset N size : Nat} {k k' : Nat}
    (h1 : k < size ∧ ValidStart (offset + k) N ∧
      ∀ j, j < k → ¬ ValidStart (offset + j) N)
    (h2 : k' < size ∧ ValidStart (offset + k') N ∧
      ∀ j, j < k' → ¬ ValidStart (offset + j) N) : k = k' := by
  rcases Nat.lt_trichotomy k k' with h | h | h
  · exact absurd h1.2.1 (h2.2.2 k h)
  · exact h
  · exact absurd h2.2.1 (h1.2.2 k' h)

/-! ## The prime indicator table -/

theorem length_markTrue (l : List Bool) (k : Nat) :
    (markTrue l k).length = l.length := by
  induction l generalizing k with
  | nil => rfl
  | cons b bs ih =>
    match k with
    | 0 => rfl
    | k + 1 => simp [markTrue, ih]

theorem getElem?_markTrue_self (l : List Bool) (k : Nat) (h : k < l.length) :
    (markTrue l k)[k]? = some true := by
  induction l generalizing k with
  | nil => simp at h
  | cons b bs ih =>
    match k with
    | 0 => simp [markTrue]
    | k + 1 =>
      simp only [markTrue, List.getElem?_cons_succ]
      exact ih k (by simpa using h)

theorem getElem?_markTrue_ne (l : List Bool) (k j : Nat) (h : j ≠ k) :
    (markTrue l k)[j]? = l[j]? := by
  induction l generalizing k j with
  | nil => rfl
  | cons b bs ih =>
    match k with
    | 0 =>
      match j with
      | 0 => exact absurd rfl h
      | j + 1 => simp [markTrue]
    | k + 1 =>
      match j with
      | 0 => simp [markTrue]
      | j + 1 =>
        simp only [markTrue, List.getElem?_cons_succ]
        exact ih k j (by omega)

theorem length_markPrimes (offset s : Nat) :
    ∀ (ps : List Nat) (arr : List Bool),
    (markPrimes arr offset s ps).length = arr.length := by
  intro ps
  induction ps with
  | nil => intro arr; rfl
  | cons p ps ih =>
    intro arr
    simp only [markPrimes]
    by_cases h : p - offset < s
    · rw [if_pos h, ih, length_markTrue]
    · rw [if_neg h]

theorem getElem?_markPrimes (offset s : Nat) :
    ∀ (ps : List Nat) (arr : List Bool), arr.length = s →
    ps.Pairwise (· < ·) → (∀ p ∈ ps, offset ≤ p) →
    ∀ j, j < s →
    (markPrimes arr offset s ps)[j]? =
      if offset + j ∈ ps then some true else arr[j]? := by
  intro ps
  induction ps with
  | nil =>
    intro arr hlen hsort hge j hj
    simp [markPrimes]
  | cons p ps ih =>
    intro arr hlen hsort hge j hj
    have hp : offset ≤ p := hge p (List.mem_cons_self p ps)
    have hpairs := List.pairwise_cons.mp hsort
    simp only [markPrimes]
    by_cases hguard : p - offset < s
    · rw [if_pos hguard]
      rw [ih (markTrue arr (p - offset)) (by rw [length_markTrue]; exact hlen)
        hpairs.2 (fun x hx => hge x (List.mem_cons_of_mem p hx)) j hj]
      by_cases hmem : offset + j ∈ ps
      · rw [if_pos hmem, if_pos (List.mem_cons_of_mem p hmem)]
      · rw [if_neg hmem]
        by_cases hjp : offset + j = p
        · have hjk : j = p - offset := by omega
          rw [if_pos (by rw [hjp]; exact List.mem_cons_self p ps), hjk]
          exact getElem?_markTrue_self arr (p - offset) (by omega)
        · rw [if_neg (by
            intro hmem2
            rcases List.mem_cons.mp hmem2 with h | h
            · exact hjp h
            · exact hmem h)]
          exact getElem?_markTrue_ne arr (p - offset) j (by omega)
    · rw [if_neg hguard]
      rw [if_neg (by
        intro hmem2
        rcases List.mem_cons.mp hmem2 with h | h
        · omega
        · have := hpairs.1 _ h
          omega)]

theorem fillRun_length (offset memSize N : Nat) :
    (fillRun offset memSize N).length = memSize + upperBoundDiff N := by
  unfold fillRun fillArrayOfPrimes
  rw [length_markPrimes, List.length_replicate]

theorem fillRun_getElem? (offset memSize N : Nat) (j : Nat)
    (hj : j < memSize + upperBoundDiff N) :
    (fillRun offset memSize N)[j]? = some (decide (Nat.Prime (offset + j))) := by
  unfold fillRun fillArrayOfPrimes
  rw [getElem?_markPrimes offset (memSize + upperBoundDiff N) _ _
    (List.length_replicate _ _) (primesBetween_sorted _ _)
    (fun p hp => (mem_primesBetween.mp hp).1) j hj]
  by_cases hmem : offset + j ∈ primesBetween offset (offset + memSize + upperBoundDiff N)
  · rw [if_pos hmem]
    have := (mem_primesBetween.mp hmem).2.2
    simp [this]
  · rw [if_neg hmem, List.getElem?_replicate, if_pos hj]
    have : ¬ Nat.Prime (offset + j) := by
      intro hpr
      exact hmem (mem_primesBetween.mpr ⟨by omega, by omega, hpr⟩)
    simp [this]

/-! ## Correctness of the forward test -/

theorem isCorrectValueLoop_spec (table : List Bool) :
    ∀ (cnt vo i : Nat), (∀ t, t < cnt → vo + stepSum i t < table.length) →
    isCorrectValueLoop table vo i cnt =
      some (decide (∀ t, t < cnt → table[vo + stepSum i t]? = some false)) := by
  intro cnt
  induction cnt with
  | zero =>
    intro vo i hrange
    simp [isCorrectValueLoop]
  | succ cnt ih =>
    intro vo i hrange
    simp only [isCorrectValueLoop]
    have h0 : vo + i < table.length := by
      have := hrange 0 (by omega)
      rwa [stepSum_zero] at this
    obtain ⟨hlt, b, hb⟩ : ∃ _ : vo + i < table.length, ∃ b, table[vo + i]? = some b :=
      ⟨h0, table[vo + i], List.getElem?_eq_some_iff.mpr ⟨h0, rfl⟩⟩
    cases b with
    | true =>
      rw [hb]
      have hnot : ¬ (∀ t, t < cnt + 1 → table[vo + stepSum i t]? = some false) := by
        intro hall
        have := hall 0 (by omega)
        rw [stepSum_zero, hb] at this
        cases this
      simp [hnot]
    | false =>
      simp only [hb]
      have hrec : ∀ t, t < cnt → (vo + i) + stepSum (i + 1) t < table.length := by
        intro t ht
        have := hrange (t + 1) (by omega)
        rw [stepSum_succ] at this
        omega
      rw [ih (vo + i) (i + 1) hrec]
      congr 1
      rw [decide_eq_decide]
      constructor
      · intro hall t ht
        match t with
        | 0 =>
          rw [stepSum_zero]
          exact hb
        | t + 1 =>
          have := hall t (by omega)
          rw [stepSum_succ,
            show vo + (i + stepSum (i + 1) t) = vo + i + stepSum (i + 1) t by omega]
          exact this
      · intro hall t ht
        have := hall (t + 1) (by omega)
        rw [stepSum_succ,
          show vo + (i + stepSum (i + 1) t) = vo + i + stepSum (i + 1) t by omega] at this
        exact this

/-- On the canonically built table, `isCorrectValue` decides `ValidStart` for
every value of the window. -/
theorem isCorrectValue_fillRun (offset memSize N value : Nat)
    (h1 : offset ≤ value) (h2 : value < offset + memSize) :
    isCorrectValue (fillRun offset memSize N) offset value N =
      some (decide (ValidStart value N)) := by
  unfold isCorrectValue
  have hrange : ∀ t, t < N →
      (value - offset) + stepSum 0 t < (fillRun offset memSize N).length := by
    intro t ht
    rw [fillRun_length, stepSum_zero_left]
    have hTt : T t ≤ T N := T_mono (by omega)
    have hub : upperBoundDiff N = T N := rfl
    omega
  rw [isCorrectValueLoop_spec _ N (value - offset) 0 hrange]
  congr 1
  rw [decide_eq_decide]
  constructor
  · intro hall i hi
    have := hall i hi
    rw [stepSum_zero_left] at this
    rw [fillRun_getElem? offset memSize N _ (by
      have hTt : T i ≤ T N := T_mono (by omega)
      have hub : upperBoundDiff N = T N := rfl
      have := hrange i hi
      rw [stepSum_zero_left] at this
      rw [fillRun_length] at this
      omega)] at this
    intro hpr
    rw [show offset + (value - offset + T i) = value + T i by omega] at this
    simp [hpr] at this
  · intro hval t ht
    rw [stepSum_zero_left]
    rw [fillRun_getElem? offset memSize N _ (by
      have := hrange t ht
      rw [stepSum_zero_left] at this
      rw [fillRun_length] at this
      omega)]
    have := hval t ht
    rw [show offset + (value - offset + T t) = value + T t by omega]
    simp [this]

theorem forwardLoop_correct (offset N size : Nat) :
    ∀ (cnt k : Nat), k + cnt = size →
    (∃ m : Nat, forwardLoop (fillRun offset size N) offset N k cnt = some (m : Int) ∧
        k ≤ m ∧ m < size ∧ ValidStart (offset + m) N ∧
        ∀ j, k ≤ j → j < m → ¬ ValidStart (offset + j) N) ∨
      (forwardLoop (fillRun offset size N) offset N k cnt = some (-1) ∧
        ∀ j, k ≤ j → j < size → ¬ ValidStart (offset + j) N) := by
  intro cnt
  induction cnt with
  | zero =>
    intro k hk
    right
    exact ⟨rfl, fun j h1 h2 => by omega⟩
  | succ cnt ih =>
    intro k hk
    simp only [forwardLoop]
    rw [isCorrectValue_fillRun offset size N (offset + k) (by omega) (by omega)]
    by_cases hvalid : ValidStart (offset + k) N
    · rw [decide_eq_true hvalid]
      left
      exact ⟨k, rfl, le_refl _, by omega, hvalid, fun j h1 h2 => by omega⟩
    · rw [decide_eq_false hvalid]
      rcases ih (k + 1) (by omega) with ⟨m, heq, hm1, hm2, hm3, hm4⟩ | ⟨heq, hall⟩
      · left
        refine ⟨m, heq, by omega, hm2, hm3, ?_⟩
        intro j h1 h2
        rcases Nat.eq_or_lt_of_le h1 with heq2 | hlt
        · rw [← heq2]; exact hvalid
        · exact hm4 j hlt h2
      · right
        refine ⟨heq, ?_⟩
        intro j h1 h2
        rcases Nat.eq_or_lt_of_le h1 with heq2 | hlt
        · rw [← heq2]; exact hvalid
        · exact hall j hlt h2

theorem forwardSearchRun_correct (offset N size : Nat) :
    (∃ k : Nat, forwardSearchRun offset N size = some (k : Int) ∧
        k < size ∧ ValidStart (offset + k) N ∧
        ∀ j, j < k → ¬ ValidStart (offset + j) N) ∨
      (forwardSearchRun offset N size = some (-1) ∧
        ∀ k, k < size → ¬ ValidStart (offset + k) N) := by
  rcases forwardLoop_correct offset N size size 0 (by omega) with
    ⟨m, heq, _, hm2, hm3, hm4⟩ | ⟨heq, hall⟩
  · exact Or.inl ⟨m, heq, hm2, hm3, fun j hj => hm4 j (by omega) hj⟩
  · exact Or.inr ⟨heq, fun k hk => hall k (by omega) hk⟩

/-! ## The segment manager -/

theorem look4StartValue_found {start N size fuel : Nat} {k : Int}
    (h : processArrayRun start N size = some k) (hk : 0 ≤ k) :
    look4StartValue start N size (fuel + 1) = some (k.toNat + start) := by
  simp only [look4StartValue, h]
  rw [if_pos hk]

theorem look4StartValue_next {start N size fuel : Nat}
    (h : processArrayRun start N size = some (-1)) :
    look4StartValue start N size (fuel + 1) =
      look4StartValue (start + size) N size fuel := by
  simp only [look4StartValue, h]
  rw [if_neg (by omega)]

theorem look4StartValue_sound (N size : Nat) (hN : 1 ≤ N) (hsize : 1 ≤ size) :
    ∀ (fuel start v : Nat), look4StartValue start N size fuel = some v →
    start ≤ v ∧ ValidStart v N ∧ ∀ u, start ≤ u → u < v → ¬ ValidStart u N := by
  intro fuel
  induction fuel with
  | zero => intro start v h; cases h
  | succ fuel ih =>
    intro start v h
    rcases processArrayRun_correct start N size hN hsize with
      ⟨k, heq, hks, hkv, hkmin⟩ | ⟨heq, hall⟩
    · rw [look4StartValue_found heq (by omega)] at h
      simp only [Int.toNat_natCast, Option.some.injEq] at h
      refine ⟨by omega, ?_, ?_⟩
      · rw [← h, Nat.add_comm]; exact hkv
      · intro u hu1 hu2
        have hj : u - start < k := by omega
        have := hkmin (u - start) hj
        rwa [show start + (u - start) = u by omega] at this
    · rw [look4StartValue_next heq] at h
      obtain ⟨h1, h2, h3⟩ := ih (start + size) v h
      refine ⟨by omega, h2, ?_⟩
      intro u hu1 hu2
      by_cases hu3 : start + size ≤ u
      · exact h3 u hu3 hu2
      · have := hall (u - start) (by omega)
        rwa [show start + (u - start) = u by omega] at this

theorem look4StartValue_finds (N size m : Nat) (hN : 1 ≤ N) (hsize : 1 ≤ size)
    (hmv : ValidStart m N) :
    ∀ (fuel start : Nat), start ≤ m →
    (∀ u, start ≤ u → u < m → ¬ ValidStart u N) →
    m < start + fuel * size →
    look4StartValue start N size fuel = some m := by
  intro fuel
  induction fuel with
  | zero => intro start h1 h2 h3; omega
  | succ fuel ih =>
    intro start hsm hmin hlt
    rcases processArrayRun_correct start N size hN hsize with
      ⟨k, heq, hks, hkv, hkmin⟩ | ⟨heq, hall⟩
    · rw [look4StartValue_found heq (by omega)]
      simp only [Int.toNat_natCast, Option.some.injEq]
      have hkm : start + k = m := by
        rcases Nat.lt_trichotomy (start + k) m with h | h | h
        · exact absurd hkv (hmin (start + k) (by omega) h)
        · exact h
        · exfalso
          have hj : m - start < k := by omega
          have := hkmin (m - start) hj
          rw [show start + (m - start) = m by omega] at this
          exact this hmv
      omega
    · rw [look4StartValue_next heq]
      have hout : start + size ≤ m := by
        by_contra hcon
        have := hall (m - start) (by omega)
        rw [show start + (m - start) = m by omega] at this
        exact this hmv
      apply ih (start + size) hout
      · intro u hu1 hu2; exact hmin u (by omega) hu2
      · have : (fuel + 1) * size = fuel * size + size := by ring
        omega

/-! ## The verifier on valid inputs -/

theorem nextGE_spec (x : Nat) :
    ∀ (ps : List Nat), ps.Pairwise (· < ·) → ∀ q ∈ ps, x ≤ q →
    ∃ p rest, nextGE x ps = some (p, rest) ∧ p ∈ ps ∧ x ≤ p ∧ p ≤ q ∧
      rest.Pairwise (· < ·) ∧ (∀ y ∈ rest, y ∈ ps) ∧ (q = p ∨ q ∈ rest) := by
  intro ps
  induction ps with
  | nil => intro _ q hq; cases hq
  | cons p ps ih =>
    intro hsort q hq hxq
    have hpairs := List.pairwise_cons.mp hsort
    simp only [nextGE]
    by_cases hlt : p < x
    · rw [if_pos hlt]
      have hqtail : q ∈ ps := by
        rcases List.mem_cons.mp hq with heq | h
        · omega
        · exact h
      obtain ⟨p', rest, h1, h2, h3, h4, h5, h6, h7⟩ := ih hpairs.2 q hqtail hxq
      exact ⟨p', rest, h1, List.mem_cons_of_mem p h2, h3, h4, h5,
        fun y hy => List.mem_cons_of_mem p (h6 y hy), h7⟩
    · rw [if_neg hlt]
      have hpq : p ≤ q := by
        rcases List.mem_cons.mp hq with heq | h
        · omega
        · have := hpairs.1 q h; omega
      refine ⟨p, ps, rfl, List.mem_cons_self p ps, by omega, hpq, hpairs.2,
        fun y hy => List.mem_cons_of_mem p hy, ?_⟩
      rcases List.mem_cons.mp hq with heq | h
      · exact Or.inl heq
      · exact Or.inr h

theorem advanceLoop_spec (p n A0 : Nat) (hn : 1 ≤ n) :
    ∀ (fuel iter : Nat), 1 ≤ iter → iter < n → n - iter ≤ fuel + 1 →
    ∃ it1, advanceLoop p n (A0 + T (iter - 1)) iter fuel = (A0 + T (it1 - 1), it1) ∧
      iter < it1 ∧ it1 ≤ n ∧ (p ≤ A0 + T (it1 - 1) ∨ it1 = n) := by
  intro fuel
  induction fuel with
  | zero =>
    intro iter h1 h2 h3
    have hiter : iter = n - 1 := by omega
    simp only [advanceLoop]
    refine ⟨iter + 1, ?_, by omega, by omega, ?_⟩
    · have hT : T (iter + 1 - 1) = T (iter - 1) + iter := by
        have h4 : iter - 1 + 1 = iter := by omega
        have := T_succ (iter - 1)
        rw [h4] at this
        rw [show iter + 1 - 1 = iter by omega, this]
      rw [hT]
      ring_nf
    · omega
  | succ fuel ih =>
    intro iter h1 h2 h3
    simp only [advanceLoop]
    have hT : A0 + T (iter - 1) + iter = A0 + T (iter + 1 - 1) := by
      have h4 : iter - 1 + 1 = iter := by omega
      have := T_succ (iter - 1)
      rw [h4] at this
      rw [show iter + 1 - 1 = iter by omega, this]
      ring
    by_cases hA : A0 + T (iter - 1) + iter < p
    · rw [if_pos hA]
      by_cases hend : n ≤ iter + 1
      · rw [if_pos hend]
        exact ⟨iter + 1, by rw [hT], by omega, by omega, Or.inr (by omega)⟩
      · rw [if_neg hend]
        rw [hT]
        obtain ⟨it1, heq, hi1, hi2, hi3⟩ := ih (iter + 1) (by omega) (by omega) (by omega)
        exact ⟨it1, heq, by omega, hi2, hi3⟩
    · rw [if_neg hA]
      exact ⟨iter + 1, by rw [hT], by omega, by omega, Or.inl (by rw [← hT]; omega)⟩

theorem checkLoop_valid (A0 n : Nat) (hn : 2 ≤ n) (hvalid : ValidStart A0 n) :
    ∀ (fuel iter : Nat) (ps : List Nat), 1 ≤ iter → iter < n → n - iter ≤ fuel →
    ps.Pairwise (· < ·) → (∀ x ∈ ps, Nat.Prime x) →
    (∃ q ∈ ps, A0 + T (n - 1) ≤ q) →
    ∃ it, checkLoop n (A0 + T (iter - 1)) iter ps fuel = some (0, it) := by
  intro fuel
  induction fuel with
  | zero => intro iter ps h1 h2 h3; omega
  | succ fuel ih =>
    intro iter ps h1 h2 h3 hsort hprimes hwit
    obtain ⟨q, hqmem, hqbig⟩ := hwit
    have hxq : A0 + T (iter - 1) ≤ q := by
      have := T_mono (show iter - 1 ≤ n - 1 by omega)
      omega
    obtain ⟨p, rest, hnext, hpmem, hxp, hpq, hrsort, hrmem, hqrest⟩ :=
      nextGE_spec (A0 + T (iter - 1)) ps hsort q hqmem hxq
    have hpprime : Nat.Prime p := hprimes p hpmem
    simp only [checkLoop, hnext]
    have hne1 : ¬ (p = A0 + T (iter - 1)) := by
      intro heq
      exact hvalid (iter - 1) (by omega) (by rw [← heq]; exact hpprime)
    rw [if_neg hne1]
    obtain ⟨it1, hadv, hi1, hi2, hi3⟩ :=
      advanceLoop_spec p n A0 (by omega) n iter h1 h2 (by omega)
    rw [hadv]
    have hne2 : ¬ (p = A0 + T (it1 - 1)) := by
      intro heq
      exact hvalid (it1 - 1) (by omega) (by rw [← heq]; exact hpprime)
    rw [if_neg hne2]
    by_cases hcont : it1 < n
    · rw [if_pos hcont]
      apply ih it1 rest (by omega) hcont (by omega) hrsort
        (fun x hx => hprimes x (hrmem x hx))
      rcases hqrest with heq | hmem2
      · exfalso
        rcases hi3 with hge | hitn
        · have := T_mono (show it1 - 1 ≤ n - 1 by omega)
          have hq2 : q = p := heq
          have hvalid2 := hvalid (it1 - 1) (by omega)
          have hle : A0 + T (it1 - 1) ≤ A0 + T (n - 1) := by omega
          -- p ≤ A0 + T (it1-1) ≤ A0 + T (n-1) ≤ q = p forces p = A0 + T (it1-1)
          have : p = A0 + T (it1 - 1) := by omega
          exact hne2 this
        · omega
      · exact ⟨q, hmem2, hqbig⟩
    · rw [if_neg hcont]
      exact ⟨it1, rfl⟩

theorem CheckSequenceRun_valid (A0 n : Nat) (hn : 2 ≤ n)
    (hvalid : ValidStart A0 n) :
    ∃ it, CheckSequenceRun A0 n = some (0, it) := by
  unfold CheckSequenceRun CheckSequence
  have hL : A0 + T (n - 1) ≠ 0 := by
    have h1 : 1 ≤ n - 1 := by omega
    have := T_mono h1
    have hT1 : T 1 = 1 := rfl
    omega
  obtain ⟨q, hq, hq1, hq2⟩ := Nat.bertrand (A0 + T (n - 1)) hL
  have hwit : ∃ q ∈ primesBetween A0 (2 * (A0 + T (n - 1)) + 4), A0 + T (n - 1) ≤ q := by
    refine ⟨q, mem_primesBetween.mpr ⟨by omega, by omega, hq⟩, by omega⟩
  have := checkLoop_valid A0 n hn hvalid n 1
    (primesBetween A0 (2 * (A0 + T (n - 1)) + 4)) (by omega) (by omega) (by omega)
    (primesBetween_sorted _ _)
    (fun x hx => (mem_primesBetween.mp hx).2.2) hwit
  rwa [show A0 + T (1 - 1) = A0 by simp [T]] at this

/-! ## The concurrent coordinator -/

theorem updW_self (f : Nat → WStatus) (w : Nat) (v : WStatus) :
    updW f w v w = v := by
  simp [updW]

theorem updW_ne (f : Nat → WStatus) (w : Nat) (v : WStatus) (w' : Nat)
    (h : w' ≠ w) : updW f w v w' = f w' := by
  simp [updW, h]

theorem mtStep_preserves (test : Nat → Bool) (memSize offset W m : Nat)
    (hW1 : 1 ≤ W) (hm0 : 1 ≤ m) (hm1 : offset ≤ m) (hm2 : m < offset + memSize)
    (hm3 : test m = true) (hmin : ∀ c, offset ≤ c → c < m → test c = false)
    (s : MTState) (hinv : MTInv test memSize offset W m s) (w : Nat) :
    MTInv test memSize offset W m (mtStep test memSize offset W s w) := by
  obtain ⟨i1, i2, i3, i4, i5, i6⟩ := hinv
  have hwm : ownerOf offset W m < W := Nat.mod_lt _ (by omega)
  have hdm := Nat.div_add_mod (m - offset) W
  have hbestge : s.best ≠ 0 → m ≤ s.best := by
    intro hne
    rcases i1 with h0 | ⟨ht, hge, hlt⟩
    · exact absurd h0 hne
    · by_contra hcon
      have := hmin s.best hge (by omega)
      rw [this] at ht
      cases ht
  by_cases hw : w < W
  · cases hws : s.workers w with
    | done =>
      have hstep : mtStep test memSize offset W s w = s := by
        unfold mtStep
        rw [if_pos hw, hws]
      rw [hstep]
      exact ⟨i1, i2, i3, i4, i5, i6⟩
    | installing c =>
      have hstep : mtStep test memSize offset W s w =
          MTState.mk (if s.best = 0 ∨ c < s.best then c else s.best)
            (updW s.workers w .done) := by
        unfold mtStep
        rw [if_pos hw, hws]
      rw [hstep]
      unfold MTInv
      dsimp only
      have hinst := i3 w hw c hws
      refine ⟨?_, ?_, ?_, ?_, ?_, ?_⟩
      · -- best is unset or an accepted window candidate
        by_cases hg : s.best = 0 ∨ c < s.best
        · rw [if_pos hg]
          rcases hinst with ⟨ht, h1, h2⟩ | ⟨hne, hlt⟩
          · exact Or.inr ⟨ht, h1, h2⟩
          · exfalso
            rcases hg with h0 | hlt2
            · exact hne h0
            · omega
        · rw [if_neg hg]
          exact i1
      · -- owner still running keeps its class facts
        intro c2 hc2
        by_cases howner : ownerOf offset W m = w
        · rw [howner, updW_self] at hc2
          cases hc2
        · rw [updW_ne _ _ _ _ howner] at hc2
          exact i2 c2 hc2
      · -- other installers
        intro w2 hw2 c2 hc2
        by_cases hww : w2 = w
        · rw [hww, updW_self] at hc2
          cases hc2
        · rw [updW_ne _ _ _ _ hww] at hc2
          rcases i3 w2 hw2 c2 hc2 with hvalid2 | ⟨hne2, hlt2⟩
          · exact Or.inl hvalid2
          · right
            by_cases hg : s.best = 0 ∨ c < s.best
            · rw [if_pos hg]
              have hcbig : m ≤ c := by
                rcases hinst with ⟨ht, h1, _⟩ | ⟨hne, hlt⟩
                · by_contra hcon
                  have := hmin c h1 (by omega)
                  rw [this] at ht
                  cases ht
                · rcases hg with h0 | hlt3
                  · exact absurd h0 hne
                  · omega
              constructor
              · omega
              · rcases hg with h0 | hlt3
                · exact absurd h0 hne2
                · omega
            · rw [if_neg hg]
              exact ⟨hne2, hlt2⟩
      · -- once the owner is done, best = m
        intro hdone2
        by_cases howner : ownerOf offset W m = w
        · have hcm : c = m := i5 c (by rw [howner]; exact hws)
          subst hcm
          by_cases hg : s.best = 0 ∨ c < s.best
          · rw [if_pos hg]
          · rw [if_neg hg]
            push_neg at hg
            have := hbestge hg.1
            omega
        · rw [updW_ne _ _ _ _ howner] at hdone2
          have hbm := i4 hdone2
          by_cases hg : s.best = 0 ∨ c < s.best
          · exfalso
            rcases hg with h0 | hlt3
            · omega
            · rcases hinst with ⟨ht, h1, _⟩ | ⟨hne, hlt⟩
              · have := hmin c h1 (by omega)
                rw [this] at ht
                cases ht
              · omega
          · rw [if_neg hg]
            exact hbm
      · -- owner installing must hold m
        intro c2 hc2
        by_cases howner : ownerOf offset W m = w
        · rw [howner, updW_self] at hc2
          cases hc2
        · rw [updW_ne _ _ _ _ howner] at hc2
          exact i5 c2 hc2
      · -- running workers stay at or above offset
        intro w2 hw2 c2 hc2
        by_cases hww : w2 = w
        · rw [hww, updW_self] at hc2
          cases hc2
        · rw [updW_ne _ _ _ _ hww] at hc2
          exact i6 w2 hw2 c2 hc2
    | running c =>
      have hge : offset ≤ c := i6 w hw c hws
      by_cases hguard : c < memSize + offset
      · by_cases hbreak : (test c || (decide (s.best ≠ 0) && decide (s.best < c))) = true
        · have hstep : mtStep test memSize offset W s w =
              MTState.mk s.best (updW s.workers w (.installing c)) := by
            unfold mtStep
            rw [if_pos hw, hws]
            dsimp only
            rw [if_pos hguard, if_pos hbreak]
          rw [hstep]
          unfold MTInv
          dsimp only
          have hbreak2 : test c = true ∨ (s.best ≠ 0 ∧ s.best < c) := by
            rcases Bool.or_eq_true_iff.mp hbreak with h | h
            · exact Or.inl h
            · obtain ⟨h1, h2⟩ := Bool.and_eq_true_iff.mp h
              exact Or.inr ⟨of_decide_eq_true h1, of_decide_eq_true h2⟩
          refine ⟨i1, ?_, ?_, ?_, ?_, ?_⟩
          · intro c2 hc2
            by_cases howner : ownerOf offset W m = w
            · rw [howner, updW_self] at hc2
              cases hc2
            · rw [updW_ne _ _ _ _ howner] at hc2
              exact i2 c2 hc2
          · intro w2 hw2 c2 hc2
            by_cases hww : w2 = w
            · rw [hww, updW_self] at hc2
              injection hc2 with hcc
              subst hcc
              rcases hbreak2 with h | h
              · exact Or.inl ⟨h, hge, by omega⟩
              · exact Or.inr h
            · rw [updW_ne _ _ _ _ hww] at hc2
              exact i3 w2 hw2 c2 hc2
          · intro hdone2
            by_cases howner : ownerOf offset W m = w
            · rw [howner, updW_self] at hdone2
              cases hdone2
            · rw [updW_ne _ _ _ _ howner] at hdone2
              exact i4 hdone2
          · intro c2 hc2
            by_cases howner : ownerOf offset W m = w
            · rw [howner, updW_self] at hc2
              injection hc2 with hcc
              have hown := i2 c (by rw [howner]; exact hws)
              have hcm : c = m := by
                rcases Nat.lt_or_ge c m with hlt | hge2
                · exfalso
                  have htc : test c = false := hmin c hge hlt
                  rcases hbreak2 with h | ⟨hne, hlt2⟩
                  · rw [htc] at h; cases h
                  · have := hbestge hne
                    omega
                · omega
              omega
            · rw [updW_ne _ _ _ _ howner] at hc2
              exact i5 c2 hc2
          · intro w2 hw2 c2 hc2
            by_cases hww : w2 = w
            · rw [hww, updW_self] at hc2
              cases hc2
            · rw [updW_ne _ _ _ _ hww] at hc2
              exact i6 w2 hw2 c2 hc2
        · have hstep : mtStep test memSize offset W s w =
              MTState.mk s.best (updW s.workers w (.running (c + W))) := by
            unfold mtStep
            rw [if_pos hw, hws]
            dsimp only
            rw [if_pos hguard, if_neg hbreak]
          rw [hstep]
          unfold MTInv
          dsimp only
          have hbreak2 : test c = false ∧ (s.best = 0 ∨ ¬ s.best < c) := by
            constructor
            · by_contra hcon
              have : test c = true := by
                cases h : test c
                · exact absurd h hcon
                · rfl
              exact hbreak (by rw [this]; rfl)
            · by_contra hcon
              push_neg at hcon
              apply hbreak
              rw [decide_eq_true hcon.1, decide_eq_true hcon.2]
              simp
          refine ⟨i1, ?_, ?_, ?_, ?_, ?_⟩
          · intro c2 hc2
            by_cases howner : ownerOf offset W m = w
            · rw [howner, updW_self] at hc2
              injection hc2 with hcc
              obtain ⟨⟨t, hform⟩, hcm⟩ := i2 c (by rw [howner]; exact hws)
              have hcne : c ≠ m := by
                intro hceq
                rw [hceq, hm3] at hbreak2
                cases hbreak2.1
              have hclt : c < m := by omega
              have hsform : m = offset + ownerOf offset W m + ((m - offset) / W) * W := by
                have hcomm : ((m - offset) / W) * W = W * ((m - offset) / W) :=
                  Nat.mul_comm _ _
                unfold ownerOf
                omega
              have htlt : t < (m - offset) / W := by
                by_contra hcon
                push_neg at hcon
                have : ((m - offset) / W) * W ≤ t * W := Nat.mul_le_mul_right W hcon
                omega
              have hstep : (t + 1) * W ≤ ((m - offset) / W) * W :=
                Nat.mul_le_mul_right W (by omega)
              have hform2 : (t + 1) * W = t * W + W := by ring
              constructor
              · exact ⟨t + 1, by omega⟩
              · omega
            · rw [updW_ne _ _ _ _ howner] at hc2
              exact i2 c2 hc2
          · intro w2 hw2 c2 hc2
            by_cases hww : w2 = w
            · rw [hww, updW_self] at hc2
              cases hc2
            · rw [updW_ne _ _ _ _ hww] at hc2
              exact i3 w2 hw2 c2 hc2
          · intro hdone2
            by_cases howner : ownerOf offset W m = w
            · rw [howner, updW_self] at hdone2
              cases hdone2
            · rw [updW_ne _ _ _ _ howner] at hdone2
              exact i4 hdone2
          · intro c2 hc2
            by_cases howner : ownerOf offset W m = w
            · rw [howner, updW_self] at hc2
              cases hc2
            · rw [updW_ne _ _ _ _ howner] at hc2
              exact i5 c2 hc2
          · intro w2 hw2 c2 hc2
            by_cases hww : w2 = w
            · rw [hww, updW_self] at hc2
              injection hc2 with hcc
              omega
            · rw [updW_ne _ _ _ _ hww] at hc2
              exact i6 w2 hw2 c2 hc2
      · have hstep : mtStep test memSize offset W s w =
            MTState.mk s.best (updW s.workers w .done) := by
          unfold mtStep
          rw [if_pos hw, hws]
          dsimp only
          rw [if_neg hguard]
        rw [hstep]
        unfold MTInv
        dsimp only
        refine ⟨i1, ?_, ?_, ?_, ?_, ?_⟩
        · intro c2 hc2
          by_cases howner : ownerOf offset W m = w
          · rw [howner, updW_self] at hc2
            cases hc2
          · rw [updW_ne _ _ _ _ howner] at hc2
            exact i2 c2 hc2
        · intro w2 hw2 c2 hc2
          by_cases hww : w2 = w
          · rw [hww, updW_self] at hc2
            cases hc2
          · rw [updW_ne _ _ _ _ hww] at hc2
            exact i3 w2 hw2 c2 hc2
        · intro hdone2
          by_cases howner : ownerOf offset W m = w
          · exfalso
            obtain ⟨_, hcm⟩ := i2 c (by rw [howner]; exact hws)
            omega
          · rw [updW_ne _ _ _ _ howner] at hdone2
            exact i4 hdone2
        · intro c2 hc2
          by_cases howner : ownerOf offset W m = w
          · rw [howner, updW_self] at hc2
            cases hc2
          · rw [updW_ne _ _ _ _ howner] at hc2
            exact i5 c2 hc2
        · intro w2 hw2 c2 hc2
          by_cases hww : w2 = w
          · rw [hww, updW_self] at hc2
            cases hc2
          · rw [updW_ne _ _ _ _ hww] at hc2
            exact i6 w2 hw2 c2 hc2
  · have hstep : mtStep test memSize offset W s w = s := by
      unfold mtStep
      rw [if_neg hw]
    rw [hstep]
    exact ⟨i1, i2, i3, i4, i5, i6⟩

theorem mtInit_inv (test : Nat → Bool) (memSize offset W m : Nat)
    (hW1 : 1 ≤ W) (hm1 : offset ≤ m) :
    MTInv test memSize offset W m (mtInit offset) := by
  refine ⟨Or.inl rfl, ?_, ?_, ?_, ?_, ?_⟩
  · intro c hc
    simp only [mtInit] at hc
    injection hc with hcc
    have hmod : ownerOf offset W m ≤ m - offset := Nat.mod_le _ _
    exact ⟨⟨0, by omega⟩, by omega⟩
  · intro w hw c hc
    simp only [mtInit] at hc
    cases hc
  · intro hc
    simp only [mtInit] at hc
    cases hc
  · intro c hc
    simp only [mtInit] at hc
    cases hc
  · intro w hw c hc
    simp only [mtInit] at hc
    injection hc with hcc
    omega

theorem mtRun_inv (test : Nat → Bool) (memSize offset W m : Nat)
    (hW1 : 1 ≤ W) (hm0 : 1 ≤ m) (hm1 : offset ≤ m) (hm2 : m < offset + memSize)
    (hm3 : test m = true) (hmin : ∀ c, offset ≤ c → c < m → test c = false) :
    ∀ (sch : List Nat) (s : MTState), MTInv test memSize offset W m s →
    MTInv test memSize offset W m (mtRun test memSize offset W s sch) := by
  intro sch
  induction sch with
  | nil => intro s h; exact h
  | cons w sch ih =>
    intro s h
    exact ih _ (mtStep_preserves test memSize offset W m hW1 hm0 hm1 hm2
      hm3 hmin s h w)

/-- When the window's least accepted candidate m is nonzero, every completed
run of the worker pool ends with `bestValue = m`, for every schedule. -/
theorem mtRun_least (test : Nat → Bool) (memSize offset W m : Nat)
    (hW1 : 1 ≤ W) (hm0 : 1 ≤ m) (hm1 : offset ≤ m) (hm2 : m < offset + memSize)
    (hm3 : test m = true) (hmin : ∀ c, offset ≤ c → c < m → test c = false)
    (sch : List Nat)
    (hdone : AllDone W (mtRun test memSize offset W (mtInit offset) sch)) :
    (mtRun test memSize offset W (mtInit offset) sch).best = m := by
  have hwm : ownerOf offset W m < W := Nat.mod_lt _ (by omega)
  have hinv := mtRun_inv test memSize offset W m hW1 hm0 hm1 hm2 hm3 hmin
    sch (mtInit offset) (mtInit_inv test memSize offset W m hW1 hm1)
  exact hinv.2.2.2.1 (hdone (ownerOf offset W m) hwm)

/-- When no window candidate is accepted, `bestValue` stays 0 (the window is
reported exhausted), for every schedule. -/
theorem mtRun_none (test : Nat → Bool) (memSize offset W : Nat)
    (hnone : ∀ c, offset ≤ c → c < offset + memSize → test c = false) :
    ∀ (sch : List Nat) (s : MTState), s.best = 0 →
    (∀ w, w < W → ∀ c, s.workers w = .running c → offset ≤ c) →
    (∀ w, w < W → ∀ c, s.workers w ≠ .installing c) →
    (mtRun test memSize offset W s sch).best = 0 := by
  intro sch
  induction sch with
  | nil => intro s h1 h2 h3; exact h1
  | cons w sch ih =>
    intro s h1 h2 h3
    by_cases hw : w < W
    · cases hws : s.workers w with
      | done =>
        have hstep : mtStep test memSize offset W s w = s := by
          unfold mtStep
          rw [if_pos hw, hws]
        show (mtRun test memSize offset W (mtStep test memSize offset W s w) sch).best = 0
        rw [hstep]
        exact ih s h1 h2 h3
      | installing c => exact absurd hws (h3 w hw c)
      | running c =>
        have hge : offset ≤ c := h2 w hw c hws
        by_cases hguard : c < memSize + offset
        · have htest : test c = false := hnone c hge (by omega)
          have hstep : mtStep test memSize offset W s w =
              MTState.mk s.best (updW s.workers w (.running (c + W))) := by
            unfold mtStep
            rw [if_pos hw, hws]
            dsimp only
            rw [if_pos hguard, if_neg (by simp [htest, h1])]
          show (mtRun test memSize offset W (mtStep test memSize offset W s w) sch).best = 0
          rw [hstep]
          apply ih
          · exact h1
          · intro w2 hw2 c2 hc2
            dsimp only at hc2
            by_cases hww : w2 = w
            · rw [hww, updW_self] at hc2
              injection hc2 with hcc
              omega
            · rw [updW_ne _ _ _ _ hww] at hc2
              exact h2 w2 hw2 c2 hc2
          · intro w2 hw2 c2
            dsimp only
            by_cases hww : w2 = w
            · rw [hww, updW_self]
              intro hc2
              cases hc2
            · rw [updW_ne _ _ _ _ hww]
              exact h3 w2 hw2 c2
        · have hstep : mtStep test memSize offset W s w =
              MTState.mk s.best (updW s.workers w .done) := by
            unfold mtStep
            rw [if_pos hw, hws]
            dsimp only
            rw [if_neg hguard]
          show (mtRun test memSize offset W (mtStep test memSize offset W s w) sch).best = 0
          rw [hstep]
          apply ih
          · exact h1
          · intro w2 hw2 c2 hc2
            dsimp only at hc2
            by_cases hww : w2 = w
            · rw [hww, updW_self] at hc2
              cases hc2
            · rw [updW_ne _ _ _ _ hww] at hc2
              exact h2 w2 hw2 c2 hc2
          · intro w2 hw2 c2
            dsimp only
            by_cases hww : w2 = w
            · rw [hww, updW_self]
              intro hc2
              cases hc2
            · rw [updW_ne _ _ _ _ hww]
              exact h3 w2 hw2 c2
    · have hstep : mtStep test memSize offset W s w = s := by
        unfold mtStep
        rw [if_neg hw]
      show (mtRun test memSize offset W (mtStep test memSize offset W s w) sch).best = 0
      rw [hstep]
      exact ih s h1 h2 h3

/-- Bridge between the worker test and validity, for window values. -/
theorem workerTest_eq_validStart (offset memSize n c : Nat)
    (h1 : offset ≤ c) (h2 : c < offset + memSize) :
    workerTest offset memSize n c = decide (ValidStart c n) := by
  unfold workerTest
  rw [isCorrectValue_fillRun offset memSize n c h1 h2]
  by_cases h : ValidStart c n <;> simp [h]

/-! ## Claims -/

/-- C1: for every window offset, window size ≥ 1 and sequence length n ≥ 1,
the backward Elimination Engine (`processArray` with startValueIndex 0 on a
freshly initialized window, canonical prime stream) returns exactly the
smallest index k in [0, size) such that no term offset+k+T i (0 ≤ i < n) is
prime, and returns -1 exactly when every index of the window has some prime
term; in particular the early stop (leaving the prime loop once the
smallest-alive pointer plus T (n-1) is below the current prime minus the
offset) never returns an index that a larger prime could still eliminate. -/
theorem backward_engine_correct (offset n size : Nat) (hn : 1 ≤ n)
    (hsize : 1 ≤ size) :
    (∀ k : Nat, processArrayRun offset n size = some (k : Int) ↔
      k < size ∧ ValidStart (offset + k) n ∧
        ∀ j, j < k → ¬ ValidStart (offset + j) n) ∧
    (processArrayRun offset n size = some (-1) ↔
      ∀ k, k < size → ¬ ValidStart (offset + k) n) := by
  rcases processArrayRun_correct offset n size hn hsize with
    ⟨k0, heq, hk0s, hk0v, hk0min⟩ | ⟨heq, hall⟩
  · constructor
    · intro k
      constructor
      · intro h
        have h2 : (k0 : Int) = (k : Int) := Option.some.inj (heq.symm.trans h)
        have h3 : k0 = k := by exact_mod_cast h2
        subst h3
        exact ⟨hk0s, hk0v, hk0min⟩
      · intro hk
        have h3 : k = k0 := smallestValid_unique hk ⟨hk0s, hk0v, hk0min⟩
        rw [h3, heq]
    · constructor
      · intro h
        have h2 := Option.some.inj (heq.symm.trans h)
        exfalso
        omega
      · intro hall2
        exact absurd hk0v (hall2 k0 hk0s)
  · constructor
    · intro k
      constructor
      · intro h
        have h2 := Option.some.inj (heq.symm.trans h)
        exfalso
        omega
      · intro hk
        exact absurd hk.2.1 (hall k hk.1)
    · exact ⟨fun _ => hall, fun _ => heq⟩

/-- C1 witness: at offset 0, n = 2, size 16, the engine returns index 0. -/
theorem backward_engine_correct_witness : processArrayRun 0 2 16 = some 0 :=
  ((backward_engine_correct 0 2 16 (by norm_num) (by norm_num)).1 0).mpr
    (by decide)

/-- C2: for every n ≥ 1 and window, the backward strategy (`processArray`)
and the forward strategy (table built by `fillArrayOfPrimes`, scan of
`isCorrectValue` over k = 0, 1, 2, ...) return the same smallest alive
index, or both report exhaustion of the window. -/
theorem backward_forward_agree (offset n size : Nat) (hn : 1 ≤ n)
    (hsize : 1 ≤ size) :
    processArrayRun offset n size = forwardSearchRun offset n size := by
  rcases processArrayRun_correct offset n size hn hsize with
    ⟨k, heq, hks, hkv, hkmin⟩ | ⟨heq, hall⟩ <;>
    rcases forwardSearchRun_correct offset n size with
      ⟨k2, heq2, hks2, hkv2, hkmin2⟩ | ⟨heq2, hall2⟩
  · have h3 : k = k2 :=
      smallestValid_unique ⟨hks, hkv, hkmin⟩ ⟨hks2, hkv2, hkmin2⟩
    rw [heq, heq2, h3]
  · exact absurd hkv (hall2 k hks)
  · exact absurd hkv2 (hall k2 hks2)
  · rw [heq, heq2]

/-- C2 witness: both strategies return index 9 for n = 3 on [0, 12). -/
theorem backward_forward_agree_witness :
    processArrayRun 0 3 12 = forwardSearchRun 0 3 12 :=
  backward_forward_agree 0 3 12 (by norm_num) (by norm_num)

/-- C3 counterexample: over the same window [0, 4) and table for n = 1
(candidate 0 is valid since 0 is not prime), a completed run with 1 worker
ends with bestValue = 0 — the sentinel for "window exhausted" — while a
completed run with 2 workers ends with bestValue = 1: worker counts 1 and 2
do not yield an identical minimal candidate, and the smallest valid
candidate 0 is never reported. -/
theorem coordinator_zero_sentinel_cex :
    (mtRun (workerTest 0 4 1) 4 0 1 (mtInit 0) [0, 0]).best = 0 ∧
    (mtRun (workerTest 0 4 1) 4 0 2 (mtInit 0) [0, 0, 1, 1]).best = 1 ∧
    AllDone 1 (mtRun (workerTest 0 4 1) 4 0 1 (mtInit 0) [0, 0]) ∧
    AllDone 2 (mtRun (workerTest 0 4 1) 4 0 2 (mtInit 0) [0, 0, 1, 1]) ∧
    ValidStart 0 1 := by
  refine ⟨by decide, by decide, by decide, by decide, by decide⟩

/-- C3 amended: provided the smallest valid candidate m of the window is
nonzero (bestValue = 0 doubles as the "nothing found yet" sentinel, so a
valid candidate 0 is silently dropped), every completed run of the
Concurrent Search Coordinator — any worker count in [1, 64], any
schedule — ends with bestValue = m; when the window holds no valid
candidate, every completed run ends with bestValue = 0 (window exhausted).
Consequently all worker counts yield the identical minimal candidate,
independent of scheduling order. -/
theorem coordinator_correct (memSize offset W n m : Nat) (sch : List Nat)
    (hW1 : 1 ≤ W) (hW64 : W ≤ 64)
    (hdone : AllDone W
      (mtRun (workerTest offset memSize n) memSize offset W (mtInit offset) sch)) :
    ((1 ≤ m → offset ≤ m → m < offset + memSize → ValidStart m n →
      (∀ c, offset ≤ c → c < m → ¬ ValidStart c n) →
      (mtRun (workerTest offset memSize n) memSize offset W
        (mtInit offset) sch).best = m) ∧
     ((∀ c, offset ≤ c → c < offset + memSize → ¬ ValidStart c n) →
      (mtRun (workerTest offset memSize n) memSize offset W
        (mtInit offset) sch).best = 0)) := by
  constructor
  · intro hm0 hm1 hm2 hmv hmin
    apply mtRun_least (workerTest offset memSize n) memSize offset W m hW1
      hm0 hm1 hm2 ?_ ?_ sch hdone
    · rw [workerTest_eq_validStart offset memSize n m hm1 hm2]
      exact decide_eq_true hmv
    · intro c h1 h2
      rw [workerTest_eq_validStart offset memSize n c h1 (by omega)]
      exact decide_eq_false (hmin c h1 h2)
  · intro hnone
    apply mtRun_none (workerTest offset memSize n) memSize offset W ?_ sch
      (mtInit offset) rfl
    · intro w hw c hc
      simp only [mtInit] at hc
      injection hc with hcc
      omega
    · intro w hw c hc
      simp only [mtInit] at hc
      cases hc
    · intro c h1 h2
      rw [workerTest_eq_validStart offset memSize n c h1 h2]
      exact decide_eq_false (hnone c h1 h2)

/-- C3 witness: window [8, 12), n = 2, least valid candidate 8: both the
two-worker run below and the general theorem give bestValue = 8. -/
theorem coordinator_correct_witness :
    (mtRun (workerTest 8 4 2) 4 8 2 (mtInit 8) [0, 0, 1, 1]).best = 8 :=
  (coordinator_correct 4 8 2 2 8 [0, 0, 1, 1] (by norm_num) (by norm_num)
      (by decide)).1 (by norm_num) (by norm_num) (by norm_num) (by decide)
    (fun c h1 h2 => absurd h2 (by omega))

/-- C4 (code bug): CheckSequence(0, 3) returns 0 — reporting the candidate
valid with final iteration counter 3 — although the term a_2 = 0 + T 2 = 3
of its sequence {0, 1, 3} is prime: the do-while exits once the counter
reaches n without ever fetching the prime 3, contradicting the function's
own documentation ("returns 0 if the sequence is correct and the
'incorrect' prime otherwise").  The stream is the canonical one for the
`primesieve_jump_to(&it, 0, 0 + 3*2)` call. -/
theorem checkSequence_accepts_prime_term :
    CheckSequence 0 3 (primesBetween 0 6) = some (0, 3) ∧
      Nat.Prime (0 + T 2) := by
  refine ⟨by decide, by decide⟩

/-- C5 counterexample: for n = 1 and starting offset 4, the Segment Manager
returns the (genuinely valid) candidate 4, yet the Verifier rejects it,
returning the prime 5 at iteration 2 — CheckSequence reads the out-of-range
term a_1 = 5 for a one-term sequence. -/
theorem roundTrip_fails_n1_cex :
    look4StartValue 4 1 8 1 = some 4 ∧ ValidStart 4 1 ∧
      CheckSequenceRun 4 1 = some (5, 2) := by
  refine ⟨by decide, by decide, by decide⟩

/-- C5 amended: for every n ≥ 2 (the Verifier overruns the sequence for
n = 1), every candidate returned by the Segment Manager driving the
backward Elimination Engine is confirmed by the Verifier: CheckSequence
returns 0. -/
theorem roundTrip_agree (start n size fuel v : Nat) (hn : 2 ≤ n)
    (hsize : 1 ≤ size) (h : look4StartValue start n size fuel = some v) :
    ∃ it, CheckSequenceRun v n = some (0, it) := by
  obtain ⟨_, hvalid, _⟩ :=
    look4StartValue_sound n size (by omega) hsize fuel start v h
  exact CheckSequenceRun_valid v n hn hvalid

/-- C5 witness: the manager returns 9 for n = 3 from offset 0, and the
Verifier confirms it. -/
theorem roundTrip_agree_witness : ∃ it, CheckSequenceRun 9 3 = some (0, it) :=
  roundTrip_agree 0 3 12 1 9 (by norm_num) (by norm_num) (by decide)

/-- C6: for every n ≥ 1 and starting offset, if any valid start value ≥ the
offset exists, then there is a value v — the least valid start value ≥ the
offset — such that for every window size ≥ 1 the Segment Manager
(`look4StartValue`) returns v given enough fuel, and whatever it returns
(any fuel) equals v: the reported value is the least valid start value and
is window-size independent, tiny windows included. -/
theorem segment_manager_least (start n : Nat) (hn : 1 ≤ n)
    (hex : ∃ A, start ≤ A ∧ ValidStart A n) :
    ∃ v, start ≤ v ∧ ValidStart v n ∧
      (∀ u, start ≤ u → u < v → ¬ ValidStart u n) ∧
      ∀ size, 1 ≤ size →
        look4StartValue start n size (v + 1) = some v ∧
        ∀ fuel v2, look4StartValue start n size fuel = some v2 → v2 = v := by
  obtain ⟨hm1, hm2⟩ := Nat.find_spec hex
  have hminfact : ∀ u, start ≤ u → u < Nat.find hex → ¬ ValidStart u n := by
    intro u hu1 hu2 hval
    exact absurd (Nat.find_min' hex ⟨hu1, hval⟩) (by omega)
  refine ⟨Nat.find hex, hm1, hm2, hminfact, ?_⟩
  intro size hsize
  constructor
  · apply look4StartValue_finds n size (Nat.find hex) hn hsize hm2
      (Nat.find hex + 1) start hm1 hminfact
    have h5 : (Nat.find hex + 1) * 1 ≤ (Nat.find hex + 1) * size :=
      Nat.mul_le_mul_left _ hsize
    omega
  · intro fuel v2 h
    obtain ⟨h1, h2, h3⟩ :=
      look4StartValue_sound n size hn hsize fuel start v2 h
    rcases Nat.lt_trichotomy v2 (Nat.find hex) with h4 | h4 | h4
    · exact absurd (Nat.find_min' hex ⟨h1, h2⟩) (by omega)
    · exact h4
    · exact absurd hm2 (h3 (Nat.find hex) hm1 h4)

/-- C6 witness: from offset 0 with n = 3 a valid start (9) exists, so the
manager's answer is the least valid start, for every window size. -/
theorem segment_manager_least_witness :
    ∃ v, 0 ≤ v ∧ ValidStart v 3 ∧
      (∀ u, 0 ≤ u → u < v → ¬ ValidStart u 3) ∧
      ∀ size, 1 ≤ size →
        look4StartValue 0 3 size (v + 1) = some v ∧
        ∀ fuel v2, look4StartValue 0 3 size fuel = some v2 → v2 = v :=
  segment_manager_least 0 3 (by norm_num) ⟨9, by norm_num, by decide⟩

/-- C7 counterexample: for n = 2, processing the prime 3 on a fresh window
[0, 5) eliminates the candidate 2 = 3 - T 1, whose term of index
n - 1 = 1 equals the prime (0 + 2 + T 1 = 3): an elimination is performed
for term index n - 1, which the claim excludes. -/
theorem crossOut_last_term_cex :
    crossOut 0 5 2 initArray 3 2 = false ∧ 0 + 2 + T 1 = 3 := by
  refine ⟨by decide, by decide⟩

/-- C7 amended: in the backward strategy, processing one prime p eliminates
exactly the in-window candidates p - T i for the term indices i from 0 up
to n - 1 (the loop `while (i <= n)` after `n--` performs n iterations,
term index n - 1 included). -/
theorem crossOut_eliminates_iff (offset size n : Nat) (hn : 1 ≤ n)
    (W : Nat → Bool) (p : Nat) (j : Nat) :
    crossOut offset size n W p j = false ↔
      W j = false ∨ ∃ i < n, offset + j + T i = p ∧ j < size :=
  crossOut_false_iff offset size n hn W p j

/-- C7 witness: prime 3 eliminates candidate 3 (term index 0) on the fresh
window [0, 5) with n = 2. -/
theorem crossOut_eliminates_iff_witness :
    crossOut 0 5 2 initArray 3 3 = false :=
  (crossOut_eliminates_iff 0 5 2 (by norm_num) initArray 3 3).mpr
    (Or.inr ⟨0, by norm_num, by decide, by norm_num⟩)

/-- C8 counterexample: for n = 2 and window size 4 the Prime Indicator
Table has length 4 + 2*(2+1)/2 = 7, not size + T(n-1) = 4 + (2-1)*2/2 = 5
as the claim states. -/
theorem table_length_cex :
    (fillRun 0 4 2).length = 7 ∧ (7 : Nat) ≠ 4 + (2 - 1) * 2 / 2 := by
  refine ⟨by decide, by decide⟩

/-- C8 amended: the Prime Indicator Table built for the window
[offset, offset + size) has length size + n*(n+1)/2 (the programs set
`upperBoundDiff = n*(n+1)/2` without decrementing n, which is T n, not
T (n-1)), and cell j is true if and only if offset + j is prime. -/
theorem table_spec (offset memSize n : Nat) :
    (fillRun offset memSize n).length = memSize + n * (n + 1) / 2 ∧
    ∀ j, j < memSize + n * (n + 1) / 2 →
      ((fillRun offset memSize n)[j]? = some true ↔ Nat.Prime (offset + j)) := by
  refine ⟨fillRun_length offset memSize n, ?_⟩
  intro j hj
  rw [fillRun_getElem? offset memSize n j hj]
  constructor
  · intro h
    exact of_decide_eq_true (Option.some.inj h)
  · intro h
    rw [decide_eq_true h]

/-- C8 witness: in the table for offset 0, size 4, n = 2, cell 5 is true
and 0 + 5 is prime. -/
theorem table_spec_witness :
    (fillRun 0 4 2)[5]? = some true ↔ Nat.Prime (0 + 5) :=
  (table_spec 0 4 2).2 5 (by norm_num)

/-- C9 counterexample: for n = 2 and starting offset 0 the Elimination
Engine accepts A = 0 (neither 0 nor 1 is prime), not A = 8 as the claim
states. -/
theorem n2_engine_accepts_zero_cex :
    processArrayRun 0 2 16 = some 0 ∧ ValidStart 0 2 ∧ (0 : Int) ≠ 8 := by
  refine ⟨by decide, by decide, by decide⟩

/-- C9 amended: for n = 2 and starting offset 0 the smallest start value
accepted by the Elimination Engine is A = 0 ({0, 1} holds no prime, 0 and 1
not being prime), and every A with 1 ≤ A ≤ 7 is eliminated because one of
{A, A+1} is prime. -/
theorem n2_engine_least (size : Nat) (hsize : 1 ≤ size) :
    processArrayRun 0 2 size = some 0 ∧
      ∀ A, A ≤ 7 → 1 ≤ A → ¬ ValidStart A 2 := by
  constructor
  · rcases processArrayRun_correct 0 2 size (by norm_num) hsize with
      ⟨k, heq, hks, hkv, hkmin⟩ | ⟨heq, hall⟩
    · have hk0 : k = 0 := by
        by_contra h
        exact hkmin 0 (by omega) (by decide)
      rw [heq, hk0]
      rfl
    · exact absurd (by decide : ValidStart (0 + 0) 2) (hall 0 (by omega))
  · decide

/-- C9 witness: with window size 16 the engine answers index 0, and A = 7
is indeed eliminated. -/
theorem n2_engine_least_witness :
    processArrayRun 0 2 16 = some 0 ∧ ¬ ValidStart 7 2 :=
  ⟨(n2_engine_least 16 (by norm_num)).1,
    (n2_engine_least 16 (by norm_num)).2 7 (by norm_num) (by norm_num)⟩

/-- C10: in-bounds safety of the forward strategy, in the total embedding
with Option-returning indexing: the table for a window of size memSize has
the full allocated length memSize + upperBoundDiff n, and for every window
value (offset ≤ value < offset + memSize) `isCorrectValue` returns `some`
— every lookup (value - offset) + T i, 0 ≤ i < n, is in range, so the
out-of-bounds branch (`none`) is unreachable; the multithreaded worker only
tests values below memSize + globalOffset, satisfying this precondition. -/
theorem forward_in_bounds (offset memSize n value : Nat) (hn : 1 ≤ n)
    (h1 : offset ≤ value) (h2 : value < offset + memSize) :
    (fillRun offset memSize n).length = memSize + upperBoundDiff n ∧
    ∃ b, isCorrectValue (fillRun offset memSize n) offset value n = some b :=
  ⟨fillRun_length offset memSize n,
    ⟨decide (ValidStart value n),
      isCorrectValue_fillRun offset memSize n value h1 h2⟩⟩

/-- C10 witness: value 5 in the window [0, 10) for n = 3. -/
theorem forward_in_bounds_witness :
    (fillRun 0 10 3).length = 10 + upperBoundDiff 3 ∧
    ∃ b, isCorrectValue (fillRun 0 10 3) 0 5 3 = some b :=
  forward_in_bounds 0 10 3 5 (by norm_num) (by norm_num) (by norm_num)

end Ponder
